import Mathlib

/-!
Verification of the fixed-point array kernel (`ShortArray` / `IntArray`,
`src/LibSource/ShortArray.h`).

Arrays of `int16_t` / `int32_t` samples are embedded as `List Int` together
with explicit range/saturation/wrap functions.  The `IntArray` methods that
are implemented inline in the header (`add`, `shift`, `create`, `setAll`,
`equals`) are translated directly from that code (portable, non-`ARM_CORTEX`
branch); the `ShortArray` signal operations (`convolve`, `correlate`,
`scale`, `reverse`) only have declarations and doc comments under `src/`,
so they are modelled from the spec, as indicated on each definition.
-/

/-- Saturate a wide intermediate to the signed 16-bit range
`[-32768, 32767]` (spec §4.1 `saturate`). -/
def sat16 (x : Int) : Int := max (-32768) (min 32767 x)

/-- Saturate a wide intermediate to the signed 32-bit range. -/
def sat32 (x : Int) : Int := max (-2147483648) (min 2147483647 x)

/-- Two's-complement wrap-around of a value stored into an `int32_t`.
Signed overflow is undefined behavior in C++; on the targets this library
runs on the stored bits are the low 32, which is what this models. -/
def wrap32 (x : Int) : Int := (x + 2147483648) % 4294967296 - 2147483648

/-- Arithmetic shift of a wide intermediate: right by `s` bits when
`0 ≤ s` (floor division, i.e. arithmetic shift), left otherwise
(spec §4.1: "shift may be negative, meaning left-shift"). -/
def shiftArith (x : Int) (s : Int) : Int :=
  if 0 ≤ s then Int.fdiv x (2 ^ s.toNat) else x * 2 ^ (-s).toNat

/-- The destination-writing loop shared by the convolution-style
operations: for `i = 0 .. samples-1` store `f (offset+i)` into
`dest[offset+i]`, touching no other position. -/
def writeRange (f : Nat → Int) (offset samples : Nat) (dest : List Int) : List Int :=
  (List.range samples).foldl (fun d i => d.set (offset + i) (f (offset + i))) dest

namespace ShortArray

/-- Modelled from the spec: the inner accumulator of
`ShortArray::convolve` (its implementation is not under `src/`, only the
declaration at `ShortArray.h:277`).  Spec §4.3: `destination[n] =
Σ_k a[k]·b[n-k]` over valid `k`; indices outside either input contribute
zero (implicit zero padding); accumulation is exact in a wide
accumulator. -/
def convAcc (a b : List Int) (n : Nat) : Int :=
  Finset.sum (Finset.range a.length)
    (fun k => if k ≤ n ∧ n - k < b.length then a.getD k 0 * b.getD (n - k) 0 else 0)

/-- Modelled from the spec: full convolution `ShortArray::convolve`
(`ShortArray.h:277`): writes `sat16` of the wide accumulator into
`destination[n]` for every `0 ≤ n < len(a)+len(b)-1`. -/
def convolve (a b dest : List Int) : List Int :=
  writeRange (fun n => sat16 (convAcc a b n)) 0 (a.length + b.length - 1) dest

/-- Modelled from the spec: windowed partial convolution
`ShortArray::convolve(operand2, destination, offset, samples)`
(`ShortArray.h:289`): computes only `destination[offset ..
offset+samples-1]`, leaving all other destination positions untouched. -/
def convolveWin (a b dest : List Int) (offset samples : Nat) : List Int :=
  writeRange (fun n => sat16 (convAcc a b n)) offset samples dest

/-- Modelled from the spec: `ShortArray::reverse(destination)`
(`ShortArray.h:95`, implementation not under `src/`): copies the elements
in reversed order into the destination. -/
def reverse (a : List Int) : List Int := a.reverse

/-- Modelled from the spec: the inner accumulator of
`ShortArray::correlate` (`ShortArray.h:297`, implementation not under
`src/`).  Spec §4.4: cross-correlation; output sample `n` pairs `a[k]`
with `b[k + len(b) - 1 - n]` wherever that index is in bounds. -/
def corrAcc (a b : List Int) (n : Nat) : Int :=
  Finset.sum (Finset.range a.length)
    (fun k => if n ≤ k + b.length - 1 ∧ k + b.length - 1 - n < b.length then
      a.getD k 0 * b.getD (k + b.length - 1 - n) 0 else 0)

/-- Modelled from the spec: `ShortArray::correlate` (`ShortArray.h:297`):
sets each of the `len(a)+len(b)-1` support positions of the destination
to the saturated cross-correlation accumulator. -/
def correlate (a b dest : List Int) : List Int :=
  writeRange (fun n => sat16 (corrAcc a b n)) 0 (a.length + b.length - 1) dest

/-- Modelled from the spec: `ShortArray::correlateInitialized`
(`ShortArray.h:306`): same as `correlate` but accumulates into the
caller-zeroed destination instead of overwriting it. -/
def correlateInitialized (a b dest : List Int) : List Int :=
  writeRange (fun n => sat16 (dest.getD n 0 + corrAcc a b n)) 0 (a.length + b.length - 1) dest

/-- Modelled from the spec: the per-sample contract of `ShortArray::scale`
(`ShortArray.h:183`, implementation not under `src/`; the header doc at
`ShortArray.h:173-182` states the same contract): multiply the Q1.15
sample and factor into a Q2.30 intermediate, arithmetically shift it,
then saturate to Q1.15 — in exactly that order. -/
def scaleSample (sample factor : Int) (shift : Int) : Int :=
  sat16 (shiftArith (sample * factor) shift)

/-- Modelled from the spec: `ShortArray::scale(factor, shift, destination)`
applies `scaleSample` to every element. -/
def scale (a : List Int) (factor : Int) (shift : Int) : List Int :=
  a.map (fun v => scaleSample v factor shift)

/-- Translated from `ShortArray::equals` (`ShortArray.h:417-427`): return
`false` when the sizes differ, otherwise compare elementwise.
`IntArray::equals` (`ShortArray.h:566-576`) is the same code modulo the
element type, so this one model covers both. -/
def equals (a b : List Int) : Bool :=
  decide (a.length = b.length) && (List.range a.length).all (fun n => a.getD n 0 == b.getD n 0)

end ShortArray

namespace IntArray

/-- Translated from `IntArray::setAll` (`ShortArray.h:487-496`, portable
branch): the loop stores `value` into every position. -/
def setAll (a : List Int) (value : Int) : List Int := a.map (fun _ => value)

/-- Translated from `IntArray::create` (`ShortArray.h:601-605`):
`new int32_t[size]` yields a buffer of arbitrary contents — the parameter
`alloc` here — and `clear()` (`ShortArray.h:502`, i.e. `setAll 0`) zeroes
it; the returned view has `size = alloc.length`. -/
def create (alloc : List Int) : List Int := setAll alloc 0

/-- Translated from the portable loop of `IntArray::add`
(`ShortArray.h:512-522`).  The three views (`*this` at `offA`, `operand2`
at `offB`, `destination` at `offD`) may alias, so they are modelled as
offsets into one shared memory `m`; step `n` of the loop reads
`m[offA+n]` and `m[offB+n]` from the current memory and stores their
(two's-complement wrapped) `int32_t` sum at `m[offD+n]`.  `s` is the
number of loop steps (`this->size`). -/
def addRun (offA offB offD : Nat) (s : Nat) (m : List Int) : List Int :=
  (List.range s).foldl
    (fun mem n => mem.set (offD + n) (wrap32 (mem.getD (offA + n) 0 + mem.getD (offB + n) 0))) m

/-- Translated from the in-place `IntArray::add(operand2)`
(`ShortArray.h:529-532`): it delegates to `add(operand2, *this)`, i.e. the
destination offset equals the `*this` offset. -/
def addInPlace (offA offB : Nat) (size : Nat) (m : List Int) : List Int :=
  addRun offA offB offA size m

/-- Translated from the portable branch of `IntArray::shift`
(`ShortArray.h:622-633`): for positive `shiftValue` the loop does
`data[n] <<= shiftValue` (a plain signed shift, whose overflow wraps on
the target — no saturation), otherwise `data[n] >>= -shiftValue`
(arithmetic right shift = floor division by a power of two). -/
def shift (a : List Int) (shiftValue : Int) : List Int :=
  if 0 < shiftValue then a.map (fun v => wrap32 (v * 2 ^ shiftValue.toNat))
  else a.map (fun v => Int.fdiv v (2 ^ (-shiftValue).toNat))

end IntArray

/-! ## Generic lemmas about the destination-writing loop -/

theorem writeRange_succ (f : Nat → Int) (offset s : Nat) (dest : List Int) :
    writeRange f offset (s + 1) dest =
      (writeRange f offset s dest).set (offset + s) (f (offset + s)) := by
  unfold writeRange
  rw [List.range_succ, List.foldl_append]
  rfl

theorem writeRange_length (f : Nat → Int) (offset : Nat) :
    ∀ (s : Nat) (dest : List Int), (writeRange f offset s dest).length = dest.length := by
  intro s
  induction s with
  | zero => intro dest; rfl
  | succ s ih =>
    intro dest
    rw [writeRange_succ, List.length_set, ih]

theorem getD_set_eq' (l : List Int) (i : Nat) (v : Int) (h : i < l.length) :
    (l.set i v).getD i 0 = v := by
  simp [List.getD_eq_getElem?_getD, List.getElem?_set_self h]

theorem getD_set_ne' (l : List Int) (i j : Nat) (v : Int) (h : i ≠ j) :
    (l.set i v).getD j 0 = l.getD j 0 := by
  simp [List.getD_eq_getElem?_getD, List.getElem?_set_ne h]

/-- Pointwise characterisation of `writeRange`: position `j` holds `f j`
when it lies in the written window (and physically exists), and the old
destination value otherwise. -/
theorem writeRange_getD (f : Nat → Int) (offset : Nat) :
    ∀ (s : Nat) (dest : List Int) (j : Nat),
    (writeRange f offset s dest).getD j 0 =
      if offset ≤ j ∧ j < offset + s ∧ j < dest.length then f j else dest.getD j 0 := by
  intro s
  induction s with
  | zero =>
    intro dest j
    simp only [writeRange, List.range_zero, List.foldl_nil]
    have : ¬(offset ≤ j ∧ j < offset + 0 ∧ j < dest.length) := by omega
    rw [if_neg this]
  | succ s ih =>
    intro dest j
    rw [writeRange_succ]
    by_cases hj : j = offset + s
    · subst hj
      by_cases hlen : offset + s < dest.length
      · rw [getD_set_eq' _ _ _ (by rw [writeRange_length]; exact hlen)]
        have : offset ≤ offset + s ∧ offset + s < offset + (s + 1) ∧
            offset + s < dest.length := by omega
        rw [if_pos this]
      · rw [List.set_eq_of_length_le (by rw [writeRange_length]; omega), ih]
        have h1 : ¬(offset ≤ offset + s ∧ offset + s < offset + s ∧
            offset + s < dest.length) := by omega
        have h2 : ¬(offset ≤ offset + s ∧ offset + s < offset + (s + 1) ∧
            offset + s < dest.length) := by omega
        rw [if_neg h1, if_neg h2]
    · rw [getD_set_ne' _ _ _ _ (fun h => hj h.symm), ih]
      by_cases hin : offset ≤ j ∧ j < offset + s ∧ j < dest.length
      · rw [if_pos hin, if_pos (by omega)]
      · rw [if_neg hin, if_neg (by omega)]

/-- Congruence for `writeRange`: only the values of `f` on the written
window matter. -/
theorem writeRange_congr {f g : Nat → Int} (offset : Nat) :
    ∀ (s : Nat) (dest : List Int),
    (∀ j, offset ≤ j → j < offset + s → f j = g j) →
    writeRange f offset s dest = writeRange g offset s dest := by
  intro s
  induction s with
  | zero => intro dest _; rfl
  | succ s ih =>
    intro dest h
    rw [writeRange_succ, writeRange_succ, ih dest (fun j h1 h2 => h j h1 (by omega)),
      h (offset + s) (by omega) (by omega)]

/-! ## Lemmas about the convolution accumulator -/

/-- The guarded sum over `k < len(a)` equals the sum over the closed
interval of valid indices stated by the spec. -/
theorem convAcc_eq_Icc (a b : List Int) (n : Nat) (ha : a ≠ []) :
    ShortArray.convAcc a b n =
      Finset.sum (Finset.Icc (n + 1 - b.length) (min (a.length - 1) n))
        (fun k => a.getD k 0 * b.getD (n - k) 0) := by
  have hla : 1 ≤ a.length := List.length_pos.mpr ha
  rw [ShortArray.convAcc, ← Finset.sum_filter]
  congr 1
  ext k
  simp only [Finset.mem_filter, Finset.mem_range, Finset.mem_Icc]
  omega

theorem convAcc_restrict (x y : List Int) (n : Nat) :
    ShortArray.convAcc x y n =
      Finset.sum (Finset.range (n + 1))
        (fun k => if k < x.length ∧ k ≤ n ∧ n - k < y.length then
          x.getD k 0 * y.getD (n - k) 0 else 0) := by
  have h1 : ShortArray.convAcc x y n =
      Finset.sum (Finset.range x.length)
        (fun k => if k < x.length ∧ k ≤ n ∧ n - k < y.length then
          x.getD k 0 * y.getD (n - k) 0 else 0) := by
    rw [ShortArray.convAcc]
    apply Finset.sum_congr rfl
    intro k hk
    simp only [Finset.mem_range] at hk
    by_cases h : k ≤ n ∧ n - k < y.length
    · rw [if_pos h, if_pos ⟨hk, h.1, h.2⟩]
    · rw [if_neg h, if_neg (fun hc => h ⟨hc.2.1, hc.2.2⟩)]
  have h2 : Finset.sum (Finset.range x.length)
        (fun k => if k < x.length ∧ k ≤ n ∧ n - k < y.length then
          x.getD k 0 * y.getD (n - k) 0 else 0) =
      Finset.sum (Finset.range (x.length + n + 1))
        (fun k => if k < x.length ∧ k ≤ n ∧ n - k < y.length then
          x.getD k 0 * y.getD (n - k) 0 else 0) := by
    apply Finset.sum_subset
    · exact Finset.range_subset.mpr (by omega)
    · intro k _ hk
      simp only [Finset.mem_range, not_lt] at hk
      rw [if_neg (by omega)]
  have h3 : Finset.sum (Finset.range (n + 1))
        (fun k => if k < x.length ∧ k ≤ n ∧ n - k < y.length then
          x.getD k 0 * y.getD (n - k) 0 else 0) =
      Finset.sum (Finset.range (x.length + n + 1))
        (fun k => if k < x.length ∧ k ≤ n ∧ n - k < y.length then
          x.getD k 0 * y.getD (n - k) 0 else 0) := by
    apply Finset.sum_subset
    · exact Finset.range_subset.mpr (by omega)
    · intro k _ hk
      simp only [Finset.mem_range, not_lt] at hk
      rw [if_neg (by omega)]
  rw [h1, h2, ← h3]

/-- The convolution accumulator is symmetric in its two inputs. -/
theorem convAcc_comm (a b : List Int) (n : Nat) :
    ShortArray.convAcc a b n = ShortArray.convAcc b a n := by
  rw [convAcc_restrict a b, convAcc_restrict b a, ← Finset.sum_range_reflect]
  apply Finset.sum_congr rfl
  intro k hk
  simp only [Finset.mem_range] at hk
  have h1 : n + 1 - 1 - k = n - k := by omega
  have h2 : n - (n - k) = k := by omega
  rw [h1, h2]
  by_cases h : n - k < a.length ∧ n - k ≤ n ∧ k < b.length
  · rw [if_pos h, if_pos (show k < b.length ∧ k ≤ n ∧ n - k < a.length by omega)]
    exact mul_comm _ _
  · rw [if_neg h, if_neg (by omega)]

/-! ## Claim theorems: convolution -/

/-- C1: full convolution writes, for every output index
`0 ≤ n < len(a)+len(b)-1`, the destination value
`sat16 (Σ_{max(0, n-len(b)+1) ≤ k ≤ min(len(a)-1, n)} a[k]·b[n-k])` —
the wide accumulator of the valid-`k` window, saturated to the 16-bit
range on store.  (`n + 1 - b.length` is the truncated natural-number
form of `max (0, n - len(b) + 1)`.) -/
theorem c1_convolve_full (a b dest : List Int) (ha : a ≠ []) (hb : b ≠ [])
    (hcap : a.length + b.length - 1 ≤ dest.length)
    (n : Nat) (hn : n < a.length + b.length - 1) :
    (ShortArray.convolve a b dest).getD n 0 =
      sat16 (Finset.sum (Finset.Icc (n + 1 - b.length) (min (a.length - 1) n))
        (fun k => a.getD k 0 * b.getD (n - k) 0)) := by
  rw [ShortArray.convolve, writeRange_getD,
    if_pos (show 0 ≤ n ∧ n < 0 + (a.length + b.length - 1) ∧ n < dest.length by omega),
    convAcc_eq_Icc a b n ha]

/-- C1 witness: `convolve [1,2] [3,4]` at output index 1 equals the
saturated window sum `1·4 + 2·3 = 10`. -/
theorem c1_witness :
    ([1, 2] : List Int) ≠ [] ∧ ([3, 4] : List Int) ≠ [] ∧
    (ShortArray.convolve [1, 2] [3, 4] [0, 0, 0]).getD 1 0 =
      sat16 (Finset.sum (Finset.Icc (1 + 1 - ([3, 4] : List Int).length)
        (min (([1, 2] : List Int).length - 1) 1))
        (fun k => ([1, 2] : List Int).getD k 0 * ([3, 4] : List Int).getD (1 - k) 0)) :=
  ⟨by decide, by decide,
   c1_convolve_full [1, 2] [3, 4] [0, 0, 0] (by decide) (by decide) (by decide) 1 (by decide)⟩

/-- C3: windowed convolution agrees with the full convolution on every
position of the window `[offset, offset+samples)` and leaves every
destination position outside the window unmodified. -/
theorem c3_convolve_window (a b dest : List Int) (offset samples : Nat)
    (hos : offset + samples ≤ a.length + b.length - 1) :
    (∀ i, i < samples →
      (ShortArray.convolveWin a b dest offset samples).getD (offset + i) 0 =
        (ShortArray.convolve a b dest).getD (offset + i) 0) ∧
    (∀ j, j < offset ∨ offset + samples ≤ j →
      (ShortArray.convolveWin a b dest offset samples).getD j 0 = dest.getD j 0) := by
  constructor
  · intro i hi
    rw [ShortArray.convolveWin, ShortArray.convolve, writeRange_getD, writeRange_getD]
    by_cases hlen : offset + i < dest.length
    · rw [if_pos (by omega), if_pos (by omega)]
    · rw [if_neg (by omega), if_neg (by omega)]
  · intro j hj
    rw [ShortArray.convolveWin, writeRange_getD, if_neg (by omega)]

/-- C3 witness: a one-sample window at offset 1 matches the full
convolution there, and position 2 keeps its old value 9. -/
theorem c3_witness :
    1 + 1 ≤ ([1, 2] : List Int).length + ([3, 4] : List Int).length - 1 ∧
    (ShortArray.convolveWin [1, 2] [3, 4] [9, 9, 9] 1 1).getD 1 0 =
      (ShortArray.convolve [1, 2] [3, 4] [9, 9, 9]).getD 1 0 ∧
    (ShortArray.convolveWin [1, 2] [3, 4] [9, 9, 9] 1 1).getD 2 0 =
      ([9, 9, 9] : List Int).getD 2 0 :=
  ⟨by decide,
   (c3_convolve_window [1, 2] [3, 4] [9, 9, 9] 1 1 (by decide)).1 0 (by decide),
   (c3_convolve_window [1, 2] [3, 4] [9, 9, 9] 1 1 (by decide)).2 2 (Or.inr (by decide))⟩

/-- C9: convolution is commutative — `convolve a b` and `convolve b a`
produce identical contents at every one of the `len(a)+len(b)-1` output
positions, for sufficiently large destinations. -/
theorem c9_convolve_comm (a b dest1 dest2 : List Int) (ha : a ≠ []) (hb : b ≠ [])
    (h1 : a.length + b.length - 1 ≤ dest1.length)
    (h2 : a.length + b.length - 1 ≤ dest2.length)
    (n : Nat) (hn : n < a.length + b.length - 1) :
    (ShortArray.convolve a b dest1).getD n 0 =
      (ShortArray.convolve b a dest2).getD n 0 := by
  rw [ShortArray.convolve, ShortArray.convolve, writeRange_getD, writeRange_getD,
    if_pos (show 0 ≤ n ∧ n < 0 + (a.length + b.length - 1) ∧ n < dest1.length by omega),
    if_pos (show 0 ≤ n ∧ n < 0 + (b.length + a.length - 1) ∧ n < dest2.length by omega),
    convAcc_comm a b n]

/-- C9 witness: `convolve [1,2] [3,4]` and `convolve [3,4] [1,2]` agree at
output index 0 even with different destination buffers. -/
theorem c9_witness :
    ([1, 2] : List Int) ≠ [] ∧
    (ShortArray.convolve [1, 2] [3, 4] [0, 0, 0]).getD 0 0 =
      (ShortArray.convolve [3, 4] [1, 2] [7, 7, 7]).getD 0 0 :=
  ⟨by decide,
   c9_convolve_comm [1, 2] [3, 4] [0, 0, 0] [7, 7, 7] (by decide) (by decide)
     (by decide) (by decide) 0 (by decide)⟩

/-! ## Claim theorems: correlation -/

/-- The cross-correlation accumulator equals the convolution accumulator
applied to the time-reversed second operand. -/
theorem corrAcc_eq (a b : List Int) (n : Nat) (hb : b ≠ []) :
    ShortArray.corrAcc a b n = ShortArray.convAcc a (ShortArray.reverse b) n := by
  have hlb : 1 ≤ b.length := List.length_pos.mpr hb
  rw [ShortArray.corrAcc, ShortArray.convAcc]
  apply Finset.sum_congr rfl
  intro k hk
  simp only [Finset.mem_range] at hk
  by_cases h : k ≤ n ∧ n - k < b.length
  · have hg : n ≤ k + b.length - 1 ∧ k + b.length - 1 - n < b.length := by omega
    have hg2 : k ≤ n ∧ n - k < (ShortArray.reverse b).length := by
      simpa [ShortArray.reverse] using h
    rw [if_pos hg, if_pos hg2]
    have hidx : b.length - 1 - (n - k) = k + b.length - 1 - n := by omega
    simp only [ShortArray.reverse, List.getD_eq_getElem?_getD]
    rw [List.getElem?_reverse h.2, hidx]
  · have hg : ¬(n ≤ k + b.length - 1 ∧ k + b.length - 1 - n < b.length) := by omega
    have hg2 : ¬(k ≤ n ∧ n - k < (ShortArray.reverse b).length) := by
      simpa [ShortArray.reverse] using h
    rw [if_neg hg, if_neg hg2]

/-- C2: `correlate(a,b,dest)` produces exactly the destination contents of
`reverse(b)` followed by `convolve(a, reversed_b, dest)`, and so does
`correlateInitialized(a,b,dest)` whenever the destination is pre-zeroed. -/
theorem c2_correlate_eq_convolve_reverse (a b dest : List Int) (hb : b ≠ []) :
    ShortArray.correlate a b dest = ShortArray.convolve a (ShortArray.reverse b) dest ∧
    ((∀ j, j < dest.length → dest.getD j 0 = 0) →
      ShortArray.correlateInitialized a b dest =
        ShortArray.convolve a (ShortArray.reverse b) dest) := by
  have hrev : (ShortArray.reverse b).length = b.length := by simp [ShortArray.reverse]
  constructor
  · rw [ShortArray.correlate, ShortArray.convolve, hrev]
    apply writeRange_congr
    intro j h1 h2
    rw [corrAcc_eq a b j hb]
  · intro hz
    rw [ShortArray.correlateInitialized, ShortArray.convolve, hrev]
    apply writeRange_congr
    intro j h1 h2
    have hdj : dest.getD j 0 = 0 := by
      by_cases hlt : j < dest.length
      · exact hz j hlt
      · rw [List.getD_eq_getElem?_getD, List.getElem?_len_le (by omega)]
        rfl
    rw [hdj, corrAcc_eq a b j hb, zero_add]

/-- C2 witness: on `a = [1]`, `b = [2]` with zeroed destination both
correlation entry points equal `convolve(a, reverse b)`. -/
theorem c2_witness :
    ([2] : List Int) ≠ [] ∧
    ShortArray.correlate [1] [2] [0] =
      ShortArray.convolve [1] (ShortArray.reverse [2]) [0] ∧
    ShortArray.correlateInitialized [1] [2] [0] =
      ShortArray.convolve [1] (ShortArray.reverse [2]) [0] :=
  ⟨by decide, (c2_correlate_eq_convolve_reverse [1] [2] [0] (by decide)).1,
   (c2_correlate_eq_convolve_reverse [1] [2] [0] (by decide)).2 (by decide)⟩

/-! ## Claim theorems: elementwise add and its aliasing behaviour -/

theorem addRun_succ (offA offB offD s : Nat) (m : List Int) :
    IntArray.addRun offA offB offD (s + 1) m =
      (IntArray.addRun offA offB offD s m).set (offD + s)
        (wrap32 ((IntArray.addRun offA offB offD s m).getD (offA + s) 0 +
          (IntArray.addRun offA offB offD s m).getD (offB + s) 0)) := by
  unfold IntArray.addRun
  rw [List.range_succ, List.foldl_append]
  rfl

/-- Invariant of the add loop: as long as neither source view starts
strictly inside the destination window (each is either at/after the
destination start, or wholly below it), every read of step `n` sees the
original memory, so position `offD+n` ends up holding the wrapped sum of
the original operands, and everything outside the destination
window is untouched. -/
theorem addRun_invariant (offA offB offD : Nat) (size : Nat) (m : List Int)
    (hA : offD ≤ offA ∨ offA + size ≤ offD)
    (hB : offD ≤ offB ∨ offB + size ≤ offD)
    (hm : offD + size ≤ m.length) :
    ∀ s, s ≤ size →
      (IntArray.addRun offA offB offD s m).length = m.length ∧
      (∀ j, j < offD ∨ offD + s ≤ j →
        (IntArray.addRun offA offB offD s m).getD j 0 = m.getD j 0) ∧
      (∀ n, n < s → (IntArray.addRun offA offB offD s m).getD (offD + n) 0 =
        wrap32 (m.getD (offA + n) 0 + m.getD (offB + n) 0)) := by
  intro s
  induction s with
  | zero =>
    intro _
    refine ⟨rfl, fun j _ => rfl, fun n hn => absurd hn (by omega)⟩
  | succ s ih =>
    intro hs
    obtain ⟨ihlen, ihold, ihnew⟩ := ih (by omega)
    have hreadA : (IntArray.addRun offA offB offD s m).getD (offA + s) 0 =
        m.getD (offA + s) 0 := by
      apply ihold
      omega
    have hreadB : (IntArray.addRun offA offB offD s m).getD (offB + s) 0 =
        m.getD (offB + s) 0 := by
      apply ihold
      omega
    rw [addRun_succ, hreadA, hreadB]
    refine ⟨by rw [List.length_set, ihlen], ?_, ?_⟩
    · intro j hj
      rw [getD_set_ne' _ _ _ _ (by omega)]
      exact ihold j (by omega)
    · intro n hn
      by_cases hns : n = s
      · subst hns
        exact getD_set_eq' _ _ _ (by rw [ihlen]; omega)
      · rw [getD_set_ne' _ _ _ _ (by omega)]
        exact ihnew n (by omega)

/-- C6 counterexample: the portable `IntArray::add` stores the wrapped
two's-complement sum on overflow, not the saturated value.  Adding `1` to
`INT32_MAX = 2147483647` stores `-2147483648`, while the saturate rule
would store `2147483647`.  (Memory layout: `a` at offset 0, `b` at
offset 1, destination at offset 2, one element each.) -/
theorem c6_counterexample :
    (IntArray.addRun 0 1 2 1 [2147483647, 1, 0]).getD 2 0 = -2147483648 ∧
    sat32 (2147483647 + 1) = 2147483647 ∧
    (-2147483648 : Int) ≠ 2147483647 := by
  decide

/-- C6 (amended): for the elementwise add with a destination that does not
start strictly inside either source window, overflow of an element-level
result is deterministic but wrapped: the stored value is the
two's-complement `wrap32` of the mathematical sum, not the saturated
value. -/
theorem c6_add_wraps (m : List Int) (offA offB offD size : Nat)
    (hA : offD ≤ offA ∨ offA + size ≤ offD)
    (hB : offD ≤ offB ∨ offB + size ≤ offD)
    (hm : offD + size ≤ m.length) :
    ∀ n, n < size → (IntArray.addRun offA offB offD size m).getD (offD + n) 0 =
      wrap32 (m.getD (offA + n) 0 + m.getD (offB + n) 0) :=
  (addRun_invariant offA offB offD size m hA hB hm size (le_refl size)).2.2

/-- C6 witness: the amended claim evaluated on the overflowing input. -/
theorem c6_witness :
    (IntArray.addRun 0 1 2 1 [2147483647, 1, 0]).getD (2 + 0) 0 =
      wrap32 (([2147483647, 1, 0] : List Int).getD (0 + 0) 0 +
        ([2147483647, 1, 0] : List Int).getD (1 + 0) 0) :=
  c6_add_wraps [2147483647, 1, 0] 0 1 2 1 (by decide) (by decide) (by decide) 0 (by decide)

/-- C7: the in-place `v.add(o)` is definitionally `v.add(o, v)` (the code
delegates to the two-operand form with `*this` as destination), and —
because each loop step reads both sources at index `n` before writing the
destination at index `n`, left to right — when `o` is the same view as
`v` or `o`'s range is disjoint from `v`'s, it leaves `v[n]` equal to the
(wrapped `int32_t`) sum of the old `v[n]` and `o[n]`, for every
`n < size`. -/
theorem c7_add_in_place (m : List Int) (offA offB size : Nat)
    (halias : offB = offA ∨ offB + size ≤ offA ∨ offA + size ≤ offB)
    (hm : offA + size ≤ m.length) :
    IntArray.addInPlace offA offB size m = IntArray.addRun offA offB offA size m ∧
    ∀ n, n < size → (IntArray.addInPlace offA offB size m).getD (offA + n) 0 =
      wrap32 (m.getD (offA + n) 0 + m.getD (offB + n) 0) := by
  have hB : offA ≤ offB ∨ offB + size ≤ offA := by omega
  exact ⟨rfl,
    (addRun_invariant offA offB offA size m (Or.inl (le_refl offA)) hB hm size
      (le_refl size)).2.2⟩

/-- C7 witness: in-place add of the disjoint second half of `[1,2,3,4]`
onto the first half; position 0 becomes `1 + 3`. -/
theorem c7_witness :
    IntArray.addInPlace 0 2 2 [1, 2, 3, 4] = IntArray.addRun 0 2 0 2 [1, 2, 3, 4] ∧
    (IntArray.addInPlace 0 2 2 [1, 2, 3, 4]).getD (0 + 0) 0 =
      wrap32 (([1, 2, 3, 4] : List Int).getD (0 + 0) 0 +
        ([1, 2, 3, 4] : List Int).getD (2 + 0) 0) :=
  ⟨(c7_add_in_place [1, 2, 3, 4] 0 2 2 (Or.inr (Or.inr (by decide))) (by decide)).1,
   (c7_add_in_place [1, 2, 3, 4] 0 2 2 (Or.inr (Or.inr (by decide))) (by decide)).2 0
     (by decide)⟩

/-! ## Claim theorems: shift, scale, create, equals -/

/-- C4 (code-bug evidence): the portable `IntArray::shift` does NOT
saturate on left shift, although its own doc comment
(`ShortArray.h:617-621`) says "Bitshift the array values, saturating".
Shifting `2^30 = 1073741824` left by 2 stores the wrapped value `0`,
while the saturating shift the claim (and the doc) describe would store
`INT32_MAX = 2147483647`.  The arithmetic right shift behaves as
claimed (last conjunct: `[-8, 7] >> 1 = [-4, 3]`, floor semantics, no
saturation). -/
theorem c4_shift_not_saturating :
    IntArray.shift [1073741824] 2 = [0] ∧
    sat32 (1073741824 * 2 ^ (2 : Int).toNat) = 2147483647 ∧
    ((0 : Int) ≠ 2147483647) ∧
    IntArray.shift [-8, 7] (-1) = [-4, 3] := by
  decide

/-- The 16-bit saturation always lands in `[-32768, 32767]`. -/
theorem sat16_bounds (x : Int) : -32768 ≤ sat16 x ∧ sat16 x ≤ 32767 :=
  ⟨le_max_left _ _, max_le (by norm_num) (min_le_left _ _)⟩

/-- C5: `scale` stores only values in the signed 16-bit range
`[-32768, 32767]`, for every input array, factor, shift amount and
position — the Q1.15×Q1.15 product is shifted and then saturated, in
that order (`scaleSample`); in particular the square of the type's
minimum, right-shifted by 15, saturates to `32767`. -/
theorem c5_scale_saturates (a : List Int) (factor shift : Int) (i : Nat) :
    (-32768 ≤ (ShortArray.scale a factor shift).getD i 0 ∧
      (ShortArray.scale a factor shift).getD i 0 ≤ 32767) ∧
    ShortArray.scaleSample (-32768) (-32768) 15 = 32767 := by
  constructor
  · unfold ShortArray.scale
    rw [List.getD_eq_getElem?_getD, List.getElem?_map]
    cases h : a[i]? with
    | none =>
      constructor <;> norm_num
    | some v =>
      simp only [Option.map_some', Option.getD_some]
      exact sat16_bounds _
  · decide

/-- C8: `create` returns a view whose size equals the requested size
(the length of the allocated buffer) and all of whose elements are zero,
whatever the allocator put in the fresh buffer; positions beyond the
size also read as the default 0. -/
theorem c8_create_zeroed (alloc : List Int) (i : Nat) :
    (IntArray.create alloc).length = alloc.length ∧
    (IntArray.create alloc).getD i 0 = 0 := by
  unfold IntArray.create IntArray.setAll
  refine ⟨List.length_map _ _, ?_⟩
  rw [List.getD_eq_getElem?_getD, List.getElem?_map]
  cases h : alloc[i]? <;> simp

/-- C10: `equals` returns `true` exactly when the two views have the same
size and elementwise equal contents (hence `false` whenever the sizes
differ, regardless of contents), and it is symmetric. -/
theorem c10_equals_iff (a b : List Int) :
    (ShortArray.equals a b = true ↔
      a.length = b.length ∧ ∀ n, n < a.length → a.getD n 0 = b.getD n 0) ∧
    ShortArray.equals a b = ShortArray.equals b a := by
  have key : ∀ (x y : List Int), ShortArray.equals x y = true ↔
      x.length = y.length ∧ ∀ n, n < x.length → x.getD n 0 = y.getD n 0 := by
    intro x y
    unfold ShortArray.equals
    rw [Bool.and_eq_true, decide_eq_true_eq, List.all_eq_true]
    simp only [List.mem_range, beq_iff_eq]
  constructor
  · exact key a b
  · by_cases hab : ShortArray.equals a b = true
    · obtain ⟨hl, he⟩ := (key a b).mp hab
      have hba : ShortArray.equals b a = true :=
        (key b a).mpr ⟨hl.symm, fun n hn => (he n (by omega)).symm⟩
      rw [hab, hba]
    · by_cases hba : ShortArray.equals b a = true
      · obtain ⟨hl, he⟩ := (key b a).mp hba
        exact absurd ((key a b).mpr ⟨hl.symm, fun n hn => (he n (by omega)).symm⟩) hab
      · rw [Bool.not_eq_true] at hab hba
        rw [hab, hba]
